import Mathlib

/-!
Verification of the ShelfMark entity-resolution core (src/shelfmark.py).

The Python source is shallowly embedded: Goodreads CSV rows become
`SourceRecord`, normalized Audiobookshelf items become `AbsItem`, Python
dicts become Lean functions built by `List.foldl`, and the `difflib`
similarity ratio is reproduced as an executable function over `List Char`
returning a rational number.  Text handling models the ASCII fragment of
Python's `str` methods and the regular expressions used by the source.
-/

namespace Shelfmark

/-- One row of the Goodreads CSV export, restricted to the fields the
matcher reads: `Title`, `Author`, `ISBN` (10-digit) and `ISBN13`.
Absent fields are `none`. -/
structure SourceRecord where
  Title : Option String
  Author : Option String
  ISBN : Option String
  ISBN13 : Option String
deriving DecidableEq

/-- One Audiobookshelf library item after `normalize_abs_items`:
`id`, `title`, `author`, `isbn`, `asin`, each possibly absent
(`id` is required by the API and kept total here). -/
structure AbsItem where
  id : String
  title : Option String
  author : Option String
  isbn : Option String
  asin : Option String
deriving DecidableEq

/-- Python whitespace class for the ASCII range (the regex class in
`re.sub` patterns and the default argument of `str.strip`). -/
def pyIsSpace (c : Char) : Bool :=
  c == ' ' || c == '\t' || c == '\n' || c == '\r' || c == '\x0b' || c == '\x0c'

/-- Python word-character class for the ASCII range: alphanumerics and
the underscore, the chars kept by the `[^\w\s]` deletion. -/
def pyIsWordChar (c : Char) : Bool :=
  c.isAlphanum || c == '_'

/-- ASCII lower-casing of one character, modelling `str.lower`. -/
def pyLower (c : Char) : Char :=
  Char.toLower c

/-- `str.strip()`: drop whitespace from both ends of the character list. -/
def stripChars (l : List Char) : List Char :=
  ((l.dropWhile pyIsSpace).reverse.dropWhile pyIsSpace).reverse

/-- `value.split(":")[0]`: everything before the first colon. -/
def takeBeforeColon (l : List Char) : List Char :=
  l.takeWhile (fun c => c != ':')

/-- Does the regex from line 51 of the source match the whole suffix
starting here?  The pattern is an optional whitespace run, an opening
round or square bracket, a minimal non-newline body, a closing round or
square bracket, and whitespace up to the end of the string. -/
def bracketMatchAt (l : List Char) : Bool :=
  match l.dropWhile pyIsSpace with
  | c :: rest =>
    (c == '(' || c == '[') &&
    (match rest.reverse.dropWhile pyIsSpace with
     | d :: mid => (d == ')' || d == ']') && !(mid.contains '\n')
     | [] => false)
  | [] => false

/-- Scan left to right for the leftmost position where the trailing
bracket regex matches and delete from there to the end, as
`re.sub` with an end-anchored pattern does. -/
def rtbAux : List Char → List Char
  | [] => []
  | c :: rest => if bracketMatchAt (c :: rest) then [] else c :: rtbAux rest

/-- Removal of a trailing bracketed or parenthesized segment, modelling
the substitution on line 51 of the source. -/
def removeTrailingBracket (l : List Char) : List Char := rtbAux l

/-- Keep only word characters and whitespace: models
`re.sub` of the class complementary to word-or-space with the empty string. -/
def keepWordSpace (l : List Char) : List Char :=
  l.filter (fun c => pyIsWordChar c || pyIsSpace c)

/-- One step of whitespace-run collapsing: the flag records whether the
character just before was whitespace belonging to a run whose single
replacement space has already been emitted. -/
def collapseAux : Bool → List Char → List Char
  | _, [] => []
  | prevWs, c :: rest =>
    if pyIsSpace c then
      if prevWs then collapseAux true rest
      else ' ' :: collapseAux true rest
    else c :: collapseAux false rest

/-- Replace every maximal run of whitespace by a single space, modelling
`re.sub` of one-or-more whitespace with a single space. -/
def collapseWs (l : List Char) : List Char :=
  collapseAux false l

/-- `normalize_isbn` from the source: `none` for an absent or empty
value, otherwise the digit characters in order, or `none` if there are
no digits. -/
def normalize_isbn (value : Option String) : Option String :=
  match value with
  | none => none
  | some s =>
    if s = "" then none
    else
      let digits := s.data.filter Char.isDigit
      if digits = [] then none else some (String.mk digits)

/-- `normalize_text` from the source: `none` for absent or empty input;
otherwise lower-case and strip, cut at the first colon, delete a
trailing bracketed segment, delete punctuation, collapse whitespace
runs to single spaces, and strip again.  The result may be the empty
string. -/
def normalize_text (value : Option String) : Option String :=
  match value with
  | none => none
  | some s =>
    if s = "" then none
    else
      let l0 := stripChars (s.data.map pyLower)
      let l1 := takeBeforeColon l0
      let l2 := removeTrailingBracket l1
      let l3 := keepWordSpace l2
      let l4 := collapseWs l3
      some (String.mk (stripChars l4))

/-- All positions of character `c` inside `b` restricted to the window
from `blo` (inclusive) to `bhi` (exclusive), ascending: the role of
`b2j` in `difflib.SequenceMatcher`. -/
def b2jIndices (b : List Char) (c : Char) (blo bhi : Nat) : List Nat :=
  (List.range b.length).filter
    (fun j => decide (blo ≤ j) && decide (j < bhi) && decide (b[j]? = some c))

/-- One outer-loop step of `find_longest_match`: given the previous
row's diagonal-run lengths and the best block so far, process row `i`.
The state is the run-length table (as a function) paired with the best
block `(besti, bestj, bestsize)`. -/
def fmStep (a b : List Char) (blo bhi : Nat)
    (st : (Nat → Nat) × Nat × Nat × Nat) (i : Nat) :
    (Nat → Nat) × Nat × Nat × Nat :=
  match a[i]? with
  | none => (fun _ => 0, st.2)
  | some c =>
    (b2jIndices b c blo bhi).foldl
      (fun st2 j =>
        let k := (if 0 < j then st.1 (j - 1) else 0) + 1
        let newj2len := fun q => if q = j then k else st2.1 q
        let best :=
          if st2.2.2.2 < k then (i + 1 - k, j + 1 - k, k) else st2.2
        (newj2len, best))
      (fun _ => 0, st.2)

/-- `find_longest_match` of `difflib.SequenceMatcher` without junk
(autojunk never fires at the catalog scale in scope): the longest block
of matching characters inside the window, earliest in `a` then earliest
in `b` on ties, returned as `(besti, bestj, bestsize)`. -/
def findLongestMatch (a b : List Char) (alo ahi blo bhi : Nat) :
    Nat × Nat × Nat :=
  (((List.range ahi).drop alo).foldl (fmStep a b blo bhi)
    (fun _ => 0, (alo, blo, 0))).2

/-- Total number of matched characters over the recursive decomposition
of `get_matching_blocks`, fuelled for termination; any fuel at least
the window size computes the true total. -/
def matchingTotal (a b : List Char) :
    Nat → Nat → Nat → Nat → Nat → Nat
  | 0, _, _, _, _ => 0
  | fuel + 1, alo, ahi, blo, bhi =>
    let r := findLongestMatch a b alo ahi blo bhi
    let k := r.2.2
    if k = 0 then 0
    else
      matchingTotal a b fuel alo r.1 blo r.2.1 + k +
        matchingTotal a b fuel (r.1 + k) ahi (r.2.1 + k) bhi

/-- `similarity` from the source, the `difflib` ratio `2 * M / T` where
`M` is the matched-character total and `T` the sum of the lengths;
two empty strings give ratio `1` as in `difflib`. -/
def similarity (sa sb : String) : ℚ :=
  let a := sa.data
  let b := sb.data
  if a.length + b.length = 0 then 1
  else
    (2 * (matchingTotal a b (a.length + b.length + 1) 0 a.length 0 b.length : ℚ)) /
      ((a.length + b.length : Nat) : ℚ)

/-- `index_abs_items_by_isbn`: a dict keyed by the normalized isbn,
later items silently overwriting earlier ones. -/
def index_abs_items_by_isbn (items : List AbsItem) : String → Option AbsItem :=
  items.foldl
    (fun idx it =>
      match normalize_isbn it.isbn with
      | some key => fun q => if q = key then some it else idx q
      | none => idx)
    (fun _ => none)

/-- `match_by_isbn`: per record, look up the normalized ISBN13 first and
fall back to the normalized ISBN10 when the 13-digit key is absent;
records are split into matches and unmatched in encounter order. -/
def match_by_isbn :
    List SourceRecord → (String → Option AbsItem) →
      List (SourceRecord × AbsItem) × List SourceRecord
  | [], _ => ([], [])
  | book :: rest, idx =>
    let r := match_by_isbn rest idx
    let m : Option AbsItem :=
      match normalize_isbn book.ISBN13 with
      | some k13 =>
        match idx k13 with
        | some it => some it
        | none =>
          match normalize_isbn book.ISBN with
          | some k10 => idx k10
          | none => none
      | none =>
        match normalize_isbn book.ISBN with
        | some k10 => idx k10
        | none => none
    match m with
    | some it => ((book, it) :: r.1, r.2)
    | none => (r.1, book :: r.2)

/-- `index_abs_items_by_title_author`: a dict from normalized
(title, author) pairs to the list of items carrying that key, skipping
items whose normalized title or author is absent or empty; collisions
accumulate in encounter order. -/
def index_abs_items_by_title_author (items : List AbsItem) :
    (String × String) → List AbsItem :=
  items.foldl
    (fun idx it =>
      match normalize_text it.title, normalize_text it.author with
      | some t, some a =>
        if t = "" ∨ a = "" then idx
        else fun q => if q = (t, a) then idx q ++ [it] else idx q
      | _, _ => idx)
    (fun _ => [])

/-- `match_by_title_author`: a record with absent or empty normalized
title or author is unmatched; otherwise the key is looked up and the
record matches exactly when the candidate list is a singleton. -/
def match_by_title_author :
    List SourceRecord → ((String × String) → List AbsItem) →
      List (SourceRecord × AbsItem) × List SourceRecord
  | [], _ => ([], [])
  | book :: rest, idx =>
    let r := match_by_title_author rest idx
    match normalize_text book.Title, normalize_text book.Author with
    | some t, some a =>
      if t = "" ∨ a = "" then (r.1, book :: r.2)
      else
        match idx (t, a) with
        | [it] => ((book, it) :: r.1, r.2)
        | _ => (r.1, book :: r.2)
    | _, _ => (r.1, book :: r.2)

/-- The loop body filter of `fuzzy_match_title_author`: an item is a
candidate when its normalized title and author are present and
non-empty, its title similarity is at least 0.9 and its author
similarity is at least 0.85. -/
def fuzzyCandidate (gt ga : String) (it : AbsItem) : Bool :=
  match normalize_text it.title, normalize_text it.author with
  | some bt, some ba =>
    !(bt == "") && !(ba == "") &&
      decide ((9 : ℚ) / 10 ≤ similarity gt bt) &&
      decide ((85 : ℚ) / 100 ≤ similarity ga ba)
  | _, _ => false

/-- `fuzzy_match_title_author`: `none` when the record's normalized
title or author is absent or empty; otherwise the candidates are the
items whose normalized fields are present, non-empty and within the
similarity thresholds, and a unique candidate is the match. -/
def fuzzy_match_title_author (book : SourceRecord) (abs_items : List AbsItem) :
    Option AbsItem :=
  match normalize_text book.Title, normalize_text book.Author with
  | some gt, some ga =>
    if gt = "" ∨ ga = "" then none
    else
      let candidates := abs_items.filter (fuzzyCandidate gt ga)
      match candidates with
      | [it] => some it
      | _ => none
  | _, _ => none

/-- The tier-3 loop of `main`: apply the fuzzy matcher to each residual
record against the full item list, splitting matches and unmatched in
encounter order. -/
def fuzzy_pass (books : List SourceRecord) (abs_items : List AbsItem) :
    List (SourceRecord × AbsItem) × List SourceRecord :=
  match books with
  | [] => ([], [])
  | book :: rest =>
    let r := fuzzy_pass rest abs_items
    match fuzzy_match_title_author book abs_items with
    | some m => ((book, m) :: r.1, r.2)
    | none => (r.1, book :: r.2)

/-- The matching portion of `main` (lines 389 to 405): tier 1 on the
isbn index, tier 2 on the title and author index over the residual,
tier 3 over the remaining residual, and the concatenation of the three
match lists in tier order paired with the final unmatched list. -/
def runPipeline (read_books : List SourceRecord) (abs_items : List AbsItem) :
    List (SourceRecord × AbsItem) × List SourceRecord :=
  let abs_isbn_index := index_abs_items_by_isbn abs_items
  let p1 := match_by_isbn read_books abs_isbn_index
  let abs_title_index := index_abs_items_by_title_author abs_items
  let p2 := match_by_title_author p1.2 abs_title_index
  let p3 := fuzzy_pass p2.2 abs_items
  (p1.1 ++ p2.1 ++ p3.1, p3.2)

/-- The apply loop of `main` (lines 429 to 445) with the network call
abstracted by an outcome oracle on item ids: returns the list of update
calls issued in order together with the success and failure tallies. -/
def applyUpdates :
    List (SourceRecord × AbsItem) → (String → Bool) → List String × Nat × Nat
  | [], _ => ([], 0, 0)
  | (_, it) :: rest, upd =>
    let r := applyUpdates rest upd
    if upd it.id then (it.id :: r.1, r.2.1 + 1, r.2.2)
    else (it.id :: r.1, r.2.1, r.2.2 + 1)

/-- The qualification predicate in the words of the specification of
tier 3: the candidate's title similarity reaches 0.90 and its author
similarity reaches 0.85 against the record's normalized fields, an
absent normalized field being compared as the empty string. -/
def specQualifies (gt ga : String) (it : AbsItem) : Bool :=
  decide ((9 : ℚ) / 10 ≤ similarity gt ((normalize_text it.title).getD "")) &&
    decide ((85 : ℚ) / 100 ≤ similarity ga ((normalize_text it.author).getD ""))

/-- The normalized key a source record presents to tier 2, an absent
normalized field read as the empty string. -/
def recordKey (book : SourceRecord) : String × String :=
  ((normalize_text book.Title).getD "", (normalize_text book.Author).getD "")

/-- Python truthiness of an optional string: falsy when absent or empty. -/
def optFalsy (v : Option String) : Bool :=
  match v with
  | none => true
  | some s => s == ""

/-- No two adjacent whitespace characters: the shape invariant that the
whitespace-collapsing stage of normalize_text establishes. -/
def NoDbl (l : List Char) : Prop :=
  List.Chain' (fun x y => ¬(pyIsSpace x = true ∧ pyIsSpace y = true)) l

/-! ### Helper lemmas -/

theorem char_ofNat_toNat_small (n : Nat) (h1 : 97 ≤ n) (h2 : n ≤ 122) : (Char.ofNat n).toNat = n := by
  interval_cases n <;> decide

theorem pyLower_idem (c : Char) : pyLower (pyLower c) = pyLower c := by
  unfold pyLower Char.toLower
  by_cases h : c.toNat ≥ 65 ∧ c.toNat ≤ 90
  · rw [if_pos h]
    have h2 : (Char.ofNat (c.toNat + 32)).toNat = c.toNat + 32 :=
      char_ofNat_toNat_small _ (by omega) (by omega)
    rw [if_neg (by omega)]
  · rw [if_neg h, if_neg h]

theorem pyLower_space : pyLower ' ' = ' ' := by decide

theorem mem_stripChars {c : Char} {l : List Char} (h : c ∈ stripChars l) : c ∈ l := by
  unfold stripChars at h
  rw [List.mem_reverse] at h
  have h2 := (List.dropWhile_sublist pyIsSpace).subset h
  rw [List.mem_reverse] at h2
  exact (List.dropWhile_sublist pyIsSpace).subset h2

theorem mem_rtbAux {c : Char} {l : List Char} (h : c ∈ rtbAux l) : c ∈ l := by
  induction l with
  | nil => simp [rtbAux] at h
  | cons d rest ih =>
    rw [rtbAux] at h
    split at h
    · simp at h
    · rcases List.mem_cons.mp h with h1 | h1
      · simp [h1]
      · exact List.mem_cons_of_mem _ (ih h1)

theorem mem_collapseAux {c : Char} {f : Bool} {l : List Char}
    (h : c ∈ collapseAux f l) : c = ' ' ∨ (c ∈ l ∧ pyIsSpace c = false) := by
  induction l generalizing f with
  | nil => simp [collapseAux] at h
  | cons d rest ih =>
    rw [collapseAux] at h
    by_cases hd : pyIsSpace d = true
    · rw [if_pos hd] at h
      cases f with
      | true =>
        rw [if_pos rfl] at h
        rcases ih h with h2 | h2
        · exact Or.inl h2
        · exact Or.inr ⟨List.mem_cons_of_mem _ h2.1, h2.2⟩
      | false =>
        rw [if_neg (by simp)] at h
        rcases List.mem_cons.mp h with h1 | h1
        · exact Or.inl h1
        · rcases ih h1 with h2 | h2
          · exact Or.inl h2
          · exact Or.inr ⟨List.mem_cons_of_mem _ h2.1, h2.2⟩
    · rw [if_neg hd] at h
      rcases List.mem_cons.mp h with h1 | h1
      · subst h1
        exact Or.inr ⟨List.mem_cons_self _ _, by simpa using hd⟩
      · rcases ih h1 with h2 | h2
        · exact Or.inl h2
        · exact Or.inr ⟨List.mem_cons_of_mem _ h2.1, h2.2⟩

theorem mem_collapseWs {c : Char} {l : List Char} (h : c ∈ collapseWs l) :
    c = ' ' ∨ (c ∈ l ∧ pyIsSpace c = false) :=
  mem_collapseAux h


theorem collapseWs_cons_not_ws {d : Char} {m : List Char} (hd : pyIsSpace d = false) :
    collapseWs (d :: m) = d :: collapseWs m := by
  show collapseAux false (d :: m) = d :: collapseAux false m
  rw [collapseAux, if_neg (by simp [hd])]

theorem head_dropWhile_not {p : Char → Bool} {l : List Char} {c : Char}
    (h : (l.dropWhile p).head? = some c) : p c = false := by
  induction l with
  | nil => simp [List.dropWhile] at h
  | cons d rest ih =>
    rw [List.dropWhile_cons] at h
    split at h
    · exact ih h
    · simp only [List.head?_cons, Option.some.injEq] at h
      subst h
      simp_all

theorem collapseAux_head_true {l : List Char} {c : Char}
    (h : (collapseAux true l).head? = some c) : pyIsSpace c = false := by
  induction l with
  | nil => simp [collapseAux] at h
  | cons d rest ih =>
    rw [collapseAux] at h
    by_cases hd : pyIsSpace d = true
    · rw [if_pos hd, if_pos rfl] at h
      exact ih h
    · rw [if_neg hd] at h
      simp only [List.head?_cons, Option.some.injEq] at h
      subst h
      simpa using hd

theorem noDbl_collapseAux (f : Bool) (l : List Char) : NoDbl (collapseAux f l) := by
  induction l generalizing f with
  | nil => simp [collapseAux, NoDbl]
  | cons d rest ih =>
    rw [collapseAux]
    by_cases hd : pyIsSpace d = true
    · rw [if_pos hd]
      cases f with
      | true => exact ih true
      | false =>
        rw [if_neg (by simp)]
        rw [NoDbl, List.chain'_cons']
        refine ⟨?_, ih true⟩
        intro y hy
        have := collapseAux_head_true hy
        simp [this]
    · rw [if_neg hd]
      rw [NoDbl, List.chain'_cons']
      refine ⟨?_, ih false⟩
      intro y _
      simp [hd]

theorem noDbl_collapseWs (l : List Char) : NoDbl (collapseWs l) :=
  noDbl_collapseAux false l

theorem noDbl_dropWhile {p : Char → Bool} {l : List Char} (h : NoDbl l) :
    NoDbl (l.dropWhile p) := by
  induction l with
  | nil => simpa [List.dropWhile] using h
  | cons d rest ih =>
    rw [List.dropWhile_cons]
    split
    · exact ih (List.Chain'.tail h)
    · exact h

theorem noDbl_reverse {l : List Char} (h : NoDbl l) : NoDbl l.reverse := by
  rw [NoDbl, List.chain'_reverse]
  exact h.imp (fun a b hab => fun hc => hab ⟨hc.2, hc.1⟩)

theorem noDbl_stripChars {l : List Char} (h : NoDbl l) : NoDbl (stripChars l) := by
  unfold stripChars
  exact noDbl_reverse (noDbl_dropWhile (noDbl_reverse (noDbl_dropWhile h)))

theorem collapseAux_fix : ∀ (l : List Char) (f : Bool),
    (∀ c ∈ l, pyIsSpace c = true → c = ' ') → NoDbl l →
    (f = true → ∀ c, l.head? = some c → pyIsSpace c = false) →
    collapseAux f l = l := by
  intro l
  induction l with
  | nil => intro f _ _ _; rfl
  | cons d rest ih =>
    intro f h1 h2 h3
    by_cases hd : pyIsSpace d = true
    · have hf : f = false := by
        cases f with
        | false => rfl
        | true => exact absurd hd (by simp [h3 rfl d rfl])
      subst hf
      rw [collapseAux, if_pos hd, if_neg (by simp)]
      have hdsp : d = ' ' := h1 d (List.mem_cons_self _ _) hd
      have hrest : collapseAux true rest = rest := by
        apply ih true (fun c hc hsp => h1 c (List.mem_cons_of_mem _ hc) hsp)
          (List.Chain'.tail h2)
        intro _ c hc
        cases rest with
        | nil => simp at hc
        | cons e m =>
          simp only [List.head?_cons, Option.some.injEq] at hc
          rw [← hc]
          have hne : ¬(pyIsSpace d = true ∧ pyIsSpace e = true) :=
            (List.chain'_cons.mp h2).1
          rcases Bool.eq_false_or_eq_true (pyIsSpace e) with h | h
          · exact absurd ⟨hd, h⟩ hne
          · exact h
      rw [hrest, hdsp]
    · rw [collapseAux, if_neg hd]
      rw [ih false (fun c hc hsp => h1 c (List.mem_cons_of_mem _ hc) hsp)
        (List.Chain'.tail h2) (by simp)]

theorem collapseWs_fix {l : List Char}
    (h1 : ∀ c ∈ l, pyIsSpace c = true → c = ' ')
    (h2 : NoDbl l) : collapseWs l = l :=
  collapseAux_fix l false h1 h2 (by simp)

theorem dropWhile_getLast {p : Char → Bool} {l : List Char}
    (h : l.dropWhile p ≠ []) : (l.dropWhile p).getLast? = l.getLast? := by
  induction l with
  | nil => simp [List.dropWhile] at h
  | cons d rest ih =>
    rw [List.dropWhile_cons]
    rw [List.dropWhile_cons] at h
    split
    · rename_i hp
      rw [ih (by rwa [if_pos hp] at h)]
      rw [List.getLast?_cons]
      cases hm : rest.getLast? with
      | none =>
        rw [List.getLast?_eq_none_iff] at hm
        subst hm
        rw [if_pos hp] at h
        simp [List.dropWhile] at h
      | some e => simp
    · rfl

theorem stripChars_head {l : List Char} {c : Char}
    (h : (stripChars l).head? = some c) : pyIsSpace c = false := by
  unfold stripChars at h
  rw [List.head?_reverse] at h
  have hne : (((l.dropWhile pyIsSpace).reverse).dropWhile pyIsSpace) ≠ [] := by
    intro he
    rw [he] at h
    simp at h
  rw [dropWhile_getLast hne, List.getLast?_reverse] at h
  exact head_dropWhile_not h

theorem stripChars_getLast {l : List Char} {c : Char}
    (h : (stripChars l).getLast? = some c) : pyIsSpace c = false := by
  unfold stripChars at h
  rw [List.getLast?_reverse] at h
  exact head_dropWhile_not h

theorem stripChars_fix {l : List Char}
    (hh : ∀ c, l.head? = some c → pyIsSpace c = false)
    (hl : ∀ c, l.getLast? = some c → pyIsSpace c = false) :
    stripChars l = l := by
  have h1 : l.dropWhile pyIsSpace = l := by
    cases l with
    | nil => rfl
    | cons d rest =>
      rw [List.dropWhile_cons_of_neg (by simp [hh d rfl])]
  unfold stripChars
  rw [h1]
  have h2 : l.reverse.dropWhile pyIsSpace = l.reverse := by
    cases hm : l.reverse with
    | nil => rfl
    | cons d rest =>
      have hd : l.reverse.head? = some d := by rw [hm]; rfl
      rw [List.head?_reverse] at hd
      rw [List.dropWhile_cons_of_neg (by simp [hl d hd])]
  rw [h2, List.reverse_reverse]

theorem stripChars_idem (l : List Char) : stripChars (stripChars l) = stripChars l :=
  stripChars_fix (fun _ h => stripChars_head h) (fun _ h => stripChars_getLast h)

theorem takeBeforeColon_fix {l : List Char} (h : ':' ∉ l) : takeBeforeColon l = l := by
  unfold takeBeforeColon
  rw [List.takeWhile_eq_self_iff]
  intro x hx
  simp only [bne_iff_ne, ne_eq]
  intro he
  exact h (he ▸ hx)

theorem bracketMatchAt_false {l : List Char}
    (h : ∀ c ∈ l, c ≠ '(' ∧ c ≠ '[') : bracketMatchAt l = false := by
  unfold bracketMatchAt
  cases hm : l.dropWhile pyIsSpace with
  | nil => rfl
  | cons c rest =>
    have hc : c ∈ l := by
      have : c ∈ l.dropWhile pyIsSpace := by rw [hm]; exact List.mem_cons_self _ _
      exact (List.dropWhile_sublist pyIsSpace).subset this
    have := h c hc
    simp [this.1, this.2]

theorem rtbAux_fix {l : List Char} (h : ∀ c ∈ l, c ≠ '(' ∧ c ≠ '[') : rtbAux l = l := by
  induction l with
  | nil => rfl
  | cons d rest ih =>
    rw [rtbAux, if_neg (by simp [bracketMatchAt_false h])]
    rw [ih (fun c hc => h c (List.mem_cons_of_mem _ hc))]

theorem map_pyLower_fix {l : List Char} (h : ∀ c ∈ l, pyLower c = c) :
    l.map pyLower = l := by
  rw [List.map_congr_left h]
  exact List.map_id' l

theorem string_mk_data (s : String) : String.mk s.data = s := rfl

theorem normalize_text_some {s : String} (hs : s ≠ "") :
    normalize_text (some s) =
      some (String.mk (stripChars (collapseWs (keepWordSpace
        (removeTrailingBracket (takeBeforeColon (stripChars (s.data.map pyLower)))))))) := by
  simp only [normalize_text, if_neg hs]

/-- Claim C6, amended: normalize_text is idempotent on every input
whose normalized form is non-empty; the unamended claim fails because a
non-empty input can normalize to the empty string, on which a second
application returns none. -/
theorem c6_idempotent_on_nonempty {s t : String}
    (h : normalize_text (some s) = some t) (ht : t ≠ "") :
    normalize_text (some t) = some t := by
  by_cases hs : s = ""
  · rw [hs] at h
    simp [normalize_text] at h
  rw [normalize_text_some hs] at h
  set T := stripChars (collapseWs (keepWordSpace
      (removeTrailingBracket (takeBeforeColon (stripChars (s.data.map pyLower)))))) with hT
  have htd : t.data = T := by
    have := (Option.some.injEq _ _).mp h
    rw [← this]
  have hWS : ∀ c ∈ T, c = ' ' ∨ (pyIsWordChar c = true ∧ pyIsSpace c = false) := by
    intro c hc
    have h2 := mem_stripChars hc
    rcases mem_collapseWs h2 with h3 | h3
    · exact Or.inl h3
    · have h4 := List.mem_filter.mp h3.1
      have h5 : (pyIsWordChar c || pyIsSpace c) = true := h4.2
      rcases Bool.or_eq_true_iff.mp h5 with h6 | h6
      · exact Or.inr ⟨h6, h3.2⟩
      · rw [h6] at h3
        exact absurd h3.2 (by simp)
  have hNoDbl : NoDbl T := noDbl_stripChars (noDbl_collapseWs _)
  have hlower : ∀ c ∈ T, pyLower c = c := by
    intro c hc
    have h2 := mem_stripChars hc
    rcases mem_collapseWs h2 with h3 | h3
    · rw [h3]; exact pyLower_space
    · have h4 := (List.mem_filter.mp h3.1).1
      have h5 := mem_rtbAux h4
      have h6 := (List.takeWhile_sublist _).subset h5
      have h7 := mem_stripChars h6
      rcases List.mem_map.mp h7 with ⟨c0, _, hc0⟩
      rw [← hc0]
      exact pyLower_idem c0
  have hcolon : ':' ∉ T := by
    intro hc
    rcases hWS ':' hc with h1 | h1
    · exact absurd h1 (by decide)
    · exact absurd h1.1 (by decide)
  have hbr : ∀ c ∈ T, c ≠ '(' ∧ c ≠ '[' := by
    intro c hc
    constructor
    · intro he
      subst he
      rcases hWS '(' hc with h1 | h1
      · exact absurd h1 (by decide)
      · exact absurd h1.1 (by decide)
    · intro he
      subst he
      rcases hWS '[' hc with h1 | h1
      · exact absurd h1 (by decide)
      · exact absurd h1.1 (by decide)
  have hstripT : stripChars T = T := by
    rw [hT]
    exact stripChars_idem _
  rw [normalize_text_some ht, htd]
  rw [map_pyLower_fix hlower]
  rw [hstripT]
  rw [takeBeforeColon_fix hcolon]
  show some (String.mk (stripChars (collapseWs (keepWordSpace (rtbAux T))))) = some t
  rw [rtbAux_fix hbr]
  have hkeep : keepWordSpace T = T := by
    unfold keepWordSpace
    rw [List.filter_eq_self]
    intro c hc
    rcases hWS c hc with h1 | h1
    · rw [h1]; decide
    · simp [h1.1]
  rw [hkeep]
  have hcoll : collapseWs T = T := by
    apply collapseWs_fix
    · intro c hc hsp
      rcases hWS c hc with h1 | h1
      · exact h1
      · rw [h1.2] at hsp; exact absurd hsp (by simp)
    · exact hNoDbl
  rw [hcoll, hstripT, ← htd]



/-- normalize_isbn never returns the empty string, so the Python
truthiness test on its result is the same as testing for some:
this justifies the shape of the identifier index and of tier 1. -/
theorem normalize_isbn_ne_some_empty (v : Option String) :
    normalize_isbn v ≠ some "" := by
  cases v with
  | none => simp [normalize_isbn]
  | some s =>
    show (if s = "" then none
          else
            let digits := List.filter Char.isDigit s.data
            if digits = [] then none else some (String.mk digits)) ≠ some ""
    by_cases hs : s = ""
    · simp [hs]
    · rw [if_neg hs]
      by_cases hd : s.data.filter Char.isDigit = []
      · simp [hd]
      · rw [if_neg hd]
        intro he
        apply hd
        have h2 : String.mk (s.data.filter Char.isDigit) = String.mk [] :=
          (Option.some.injEq _ _).mp he
        exact congrArg String.data h2

theorem b2jIndices_nil (c : Char) (blo bhi : Nat) : b2jIndices [] c blo bhi = [] := rfl

theorem fmStep_nil_snd (a : List Char) (blo bhi : Nat)
    (st : (Nat → Nat) × Nat × Nat × Nat) (i : Nat) :
    (fmStep a [] blo bhi st i).2 = st.2 := by
  unfold fmStep
  cases a[i]? with
  | none => rfl
  | some c => simp only [b2jIndices_nil, List.foldl_nil]

theorem foldl_fmStep_nil_snd (a : List Char) (blo bhi : Nat) (l : List Nat)
    (st : (Nat → Nat) × Nat × Nat × Nat) :
    (l.foldl (fmStep a [] blo bhi) st).2 = st.2 := by
  induction l generalizing st with
  | nil => rfl
  | cons i rest ih => rw [List.foldl_cons, ih, fmStep_nil_snd]

theorem findLongestMatch_nil (a : List Char) (alo ahi blo bhi : Nat) :
    findLongestMatch a [] alo ahi blo bhi = (alo, blo, 0) := by
  unfold findLongestMatch
  rw [foldl_fmStep_nil_snd]

theorem similarity_empty_right {s : String} (hs : s ≠ "") : similarity s "" = 0 := by
  have hd : s.data ≠ [] := by
    intro he
    apply hs
    have : String.mk s.data = String.mk [] := by rw [he]
    simpa using this
  have hlen : s.data.length ≠ 0 := fun h => hd (List.length_eq_zero.mp h)
  unfold similarity
  have hdata : ("" : String).data = [] := rfl
  rw [hdata]
  simp only [List.length_nil, Nat.add_zero]
  rw [if_neg hlen]
  have hmt : matchingTotal s.data [] (s.data.length + 1) 0 s.data.length 0 0 = 0 := by
    rw [matchingTotal]
    rw [findLongestMatch_nil]
    rfl
  rw [hmt]
  simp


theorem fuzzy_filter_congr {t a : String} (htne : t ≠ "") (hane : a ≠ "")
    (items : List AbsItem) :
    items.filter (fuzzyCandidate t a) = items.filter (specQualifies t a) := by
  have hst : decide ((9 : ℚ) / 10 ≤ similarity t "") = false :=
    decide_eq_false (by rw [similarity_empty_right htne]; norm_num)
  have hsa : decide ((85 : ℚ) / 100 ≤ similarity a "") = false :=
    decide_eq_false (by rw [similarity_empty_right hane]; norm_num)
  apply List.filter_congr
  intro x _
  unfold specQualifies
  cases hbt : normalize_text x.title with
  | none => simp [fuzzyCandidate, hbt, hst]
  | some bt =>
    cases hba : normalize_text x.author with
    | none => simp [fuzzyCandidate, hbt, hba, hsa]
    | some ba =>
      by_cases hbte : bt = ""
      · subst hbte
        simp [fuzzyCandidate, hbt, hba, hst]
      · by_cases hbae : ba = ""
        · subst hbae
          simp [fuzzyCandidate, hbt, hba, hsa, hbte]
        · have h1 : (bt == "") = false := beq_eq_false_iff_ne.mpr hbte
          have h2 : (ba == "") = false := beq_eq_false_iff_ne.mpr hbae
          simp [fuzzyCandidate, hbt, hba, h1, h2]

theorem fuzzy_match_reduce {r : SourceRecord} {items : List AbsItem} {t a : String}
    (ht : normalize_text r.Title = some t) (htne : t ≠ "")
    (ha : normalize_text r.Author = some a) (hane : a ≠ "") :
    fuzzy_match_title_author r items =
      match items.filter (specQualifies t a) with
      | [it] => some it
      | _ => none := by
  unfold fuzzy_match_title_author
  rw [ht, ha]
  show (if t = "" ∨ a = "" then none
        else match List.filter (fuzzyCandidate t a) items with
             | [it] => some it
             | _ => none) = _
  rw [if_neg (by push_neg; exact ⟨htne, hane⟩)]
  rw [fuzzy_filter_congr htne hane]

/-- Claim C2: for a source record whose normalized title and author are
present and non-empty, the tier-3 fuzzy matcher returns a match exactly
when precisely one catalog item qualifies under the specification
predicate (title similarity at least 0.90 and author similarity at
least 0.85); zero or several qualifying candidates leave the record
unmatched, so a candidate failing either threshold alone never
matches. -/
theorem c2_fuzzy_both_thresholds {r : SourceRecord} {items : List AbsItem} {t a : String}
    (ht : normalize_text r.Title = some t) (htne : t ≠ "")
    (ha : normalize_text r.Author = some a) (hane : a ≠ "") :
    (∀ it, fuzzy_match_title_author r items = some it ↔
        items.filter (specQualifies t a) = [it]) ∧
    (fuzzy_match_title_author r items = none ↔
        (items.filter (specQualifies t a)).length ≠ 1) := by
  rw [fuzzy_match_reduce ht htne ha hane]
  cases hc : items.filter (specQualifies t a) with
  | nil => simp
  | cons x rest =>
    cases rest with
    | nil => simp
    | cons y rest2 => simp

theorem ta_index_step_falsy (idx : (String × String) → List AbsItem) (it : AbsItem)
    (h : optFalsy (normalize_text it.title) = true ∨ optFalsy (normalize_text it.author) = true) :
    (fun (i : (String × String) → List AbsItem) (x : AbsItem) =>
      match normalize_text x.title, normalize_text x.author with
      | some t, some a =>
        if t = "" ∨ a = "" then i
        else fun q => if q = (t, a) then i q ++ [x] else i q
      | _, _ => i) idx it = idx := by
  show (match normalize_text it.title, normalize_text it.author with
    | some t, some a =>
      if t = "" ∨ a = "" then idx
      else fun q => if q = (t, a) then idx q ++ [it] else idx q
    | _, _ => idx) = idx
  cases hnt : normalize_text it.title with
  | none => rfl
  | some t =>
    cases hna : normalize_text it.author with
    | none => rfl
    | some a =>
      show (if t = "" ∨ a = "" then idx else _) = idx
      rw [if_pos]
      rcases h with h | h
      · rw [hnt] at h
        simp only [optFalsy] at h
        exact Or.inl (by simpa using h)
      · rw [hna] at h
        simp only [optFalsy] at h
        exact Or.inr (by simpa using h)

theorem ta_index_empty_key (items : List AbsItem) (q : String × String)
    (hq : q.1 = "" ∨ q.2 = "") : index_abs_items_by_title_author items q = [] := by
  unfold index_abs_items_by_title_author
  suffices h : ∀ (acc : (String × String) → List AbsItem), acc q = [] →
      (items.foldl (fun idx it =>
        match normalize_text it.title, normalize_text it.author with
        | some t, some a =>
          if t = "" ∨ a = "" then idx
          else fun p => if p = (t, a) then idx p ++ [it] else idx p
        | _, _ => idx) acc) q = [] by
    exact h _ rfl
  induction items with
  | nil => intro acc hacc; exact hacc
  | cons it rest ih =>
    intro acc hacc
    rw [List.foldl_cons]
    apply ih
    cases hnt : normalize_text it.title with
    | none => exact hacc
    | some t =>
      cases hna : normalize_text it.author with
      | none => exact hacc
      | some a =>
        show (if t = "" ∨ a = "" then acc else fun p => if p = (t, a) then acc p ++ [it] else acc p) q = []
        split
        · exact hacc
        · show (if q = (t, a) then acc q ++ [it] else acc q) = []
          rw [if_neg, hacc]
          intro he
          rename_i hta
          rcases hq with h | h
          · exact hta (Or.inl (by rw [he] at h; exact h))
          · exact hta (Or.inr (by rw [he] at h; exact h))

theorem mbta_singleton_red (r : SourceRecord) (idx : (String × String) → List AbsItem) :
    match_by_title_author [r] idx =
      (match normalize_text r.Title, normalize_text r.Author with
       | some t, some a =>
         if t = "" ∨ a = "" then ([], [r])
         else
           match idx (t, a) with
           | [it] => ([(r, it)], [])
           | _ => ([], [r])
       | _, _ => ([], [r])) := by
  show (let p := match_by_title_author [] idx
        match normalize_text r.Title, normalize_text r.Author with
        | some t, some a =>
          if t = "" ∨ a = "" then (p.1, r :: p.2)
          else
            match idx (t, a) with
            | [it] => ((r, it) :: p.1, p.2)
            | _ => (p.1, r :: p.2)
        | _, _ => (p.1, r :: p.2)) = _
  cases normalize_text r.Title with
  | none => rfl
  | some t =>
    cases normalize_text r.Author with
    | none => rfl
    | some a => rfl

theorem mbta_char (items : List AbsItem) (r : SourceRecord) :
    (∀ it, match_by_title_author [r] (index_abs_items_by_title_author items) = ([(r, it)], []) ↔
        index_abs_items_by_title_author items (recordKey r) = [it]) ∧
    (match_by_title_author [r] (index_abs_items_by_title_author items) = ([], [r]) ↔
        (index_abs_items_by_title_author items (recordKey r)).length ≠ 1) := by
  rw [mbta_singleton_red]
  cases hnt : normalize_text r.Title with
  | none =>
    have hkey : index_abs_items_by_title_author items (recordKey r) = [] :=
      ta_index_empty_key items _ (Or.inl (by simp [recordKey, hnt]))
    rw [hkey]
    constructor
    · intro it
      simp
    · simp
  | some t =>
    cases hna : normalize_text r.Author with
    | none =>
      have hkey : index_abs_items_by_title_author items (recordKey r) = [] :=
        ta_index_empty_key items _ (Or.inr (by simp [recordKey, hna]))
      rw [hkey]
      constructor
      · intro it
        simp
      · simp
    | some a =>
      have hkeyeq : recordKey r = (t, a) := by simp [recordKey, hnt, hna]
      rw [hkeyeq]
      by_cases he : t = "" ∨ a = ""
      · have hkey : index_abs_items_by_title_author items (t, a) = [] := by
          apply ta_index_empty_key
          rcases he with h | h
          · exact Or.inl h
          · exact Or.inr h
        rw [hkey]
        constructor
        · intro it
          simp [he]
        · simp [he]
      · cases hc : index_abs_items_by_title_author items (t, a) with
        | nil =>
          constructor
          · intro it
            simp [he, hc]
          · simp [he, hc]
        | cons x rest =>
          cases rest with
          | nil =>
            constructor
            · intro it
              simp [he, hc]
            · simp [he, hc]
          | cons y rest2 =>
            constructor
            · intro it
              simp [he, hc]
            · simp [he, hc]

theorem mbta_cons (b : SourceRecord) (books : List SourceRecord)
    (idx : (String × String) → List AbsItem) :
    match_by_title_author (b :: books) idx =
      ((match_by_title_author [b] idx).1 ++ (match_by_title_author books idx).1,
       (match_by_title_author [b] idx).2 ++ (match_by_title_author books idx).2) := by
  rw [mbta_singleton_red]
  show (let r := match_by_title_author books idx
        match normalize_text b.Title, normalize_text b.Author with
        | some t, some a =>
          if t = "" ∨ a = "" then (r.1, b :: r.2)
          else
            match idx (t, a) with
            | [it] => ((b, it) :: r.1, r.2)
            | _ => (r.1, b :: r.2)
        | _, _ => (r.1, b :: r.2)) = _
  cases normalize_text b.Title with
  | none => simp
  | some t =>
    cases normalize_text b.Author with
    | none => simp
    | some a =>
      by_cases he : t = "" ∨ a = ""
      · simp [he]
      · cases hc : idx (t, a) with
        | nil => simp [he, hc]
        | cons x rest =>
          cases rest with
          | nil => simp [he, hc]
          | cons y rest2 => simp [he, hc]

theorem mbi_singleton_red (r : SourceRecord) (idx : String → Option AbsItem) :
    match_by_isbn [r] idx =
      (match
        (match normalize_isbn r.ISBN13 with
         | some k13 =>
           match idx k13 with
           | some it => some it
           | none =>
             match normalize_isbn r.ISBN with
             | some k10 => idx k10
             | none => none
         | none =>
           match normalize_isbn r.ISBN with
           | some k10 => idx k10
           | none => none) with
       | some it => ([(r, it)], [])
       | none => ([], [r])) := by
  show (let p := match_by_isbn [] idx
        let m : Option AbsItem :=
          match normalize_isbn r.ISBN13 with
          | some k13 =>
            match idx k13 with
            | some it => some it
            | none =>
              match normalize_isbn r.ISBN with
              | some k10 => idx k10
              | none => none
          | none =>
            match normalize_isbn r.ISBN with
            | some k10 => idx k10
            | none => none
        match m with
        | some it => ((r, it) :: p.1, p.2)
        | none => (p.1, r :: p.2)) = _
  cases hm : (match normalize_isbn r.ISBN13 with
    | some k13 =>
      match idx k13 with
      | some it => some it
      | none =>
        match normalize_isbn r.ISBN with
        | some k10 => idx k10
        | none => none
    | none =>
      match normalize_isbn r.ISBN with
      | some k10 => idx k10
      | none => none : Option AbsItem) with
  | some it => simp [hm, match_by_isbn]
  | none => simp [hm, match_by_isbn]

theorem mbi_char (r : SourceRecord) (idx : String → Option AbsItem) :
    (∀ it, match_by_isbn [r] idx = ([(r, it)], []) ↔
      ((∃ k, normalize_isbn r.ISBN13 = some k ∧ idx k = some it) ∨
       ((normalize_isbn r.ISBN13 = none ∨
         (∃ k, normalize_isbn r.ISBN13 = some k ∧ idx k = none)) ∧
        (∃ k, normalize_isbn r.ISBN = some k ∧ idx k = some it)))) ∧
    (match_by_isbn [r] idx = ([], [r]) ↔
      ((normalize_isbn r.ISBN13 = none ∨
        (∃ k, normalize_isbn r.ISBN13 = some k ∧ idx k = none)) ∧
       (normalize_isbn r.ISBN = none ∨
        (∃ k, normalize_isbn r.ISBN = some k ∧ idx k = none)))) := by
  rw [mbi_singleton_red]
  cases h13 : normalize_isbn r.ISBN13 with
  | some k13 =>
    cases hi13 : idx k13 with
    | some x =>
      constructor
      · intro it
        simp [h13, hi13]
      · simp [h13, hi13]
    | none =>
      cases h10 : normalize_isbn r.ISBN with
      | some k10 =>
        cases hi10 : idx k10 with
        | some y =>
          constructor
          · intro it
            simp [h13, hi13, h10, hi10]
          · simp [h13, hi13, h10, hi10]
        | none =>
          constructor
          · intro it
            simp [h13, hi13, h10, hi10]
          · simp [h13, hi13, h10, hi10]
      | none =>
        constructor
        · intro it
          simp [h13, hi13, h10]
        · simp [h13, hi13, h10]
  | none =>
    cases h10 : normalize_isbn r.ISBN with
    | some k10 =>
      cases hi10 : idx k10 with
      | some y =>
        constructor
        · intro it
          simp [h13, h10, hi10]
        · simp [h13, h10, hi10]
      | none =>
        constructor
        · intro it
          simp [h13, h10, hi10]
        · simp [h13, h10, hi10]
    | none =>
      constructor
      · intro it
        simp [h13, h10]
      · simp [h13, h10]

theorem mbi_cons (b : SourceRecord) (books : List SourceRecord)
    (idx : String → Option AbsItem) :
    match_by_isbn (b :: books) idx =
      ((match_by_isbn [b] idx).1 ++ (match_by_isbn books idx).1,
       (match_by_isbn [b] idx).2 ++ (match_by_isbn books idx).2) := by
  rw [mbi_singleton_red]
  show (let p := match_by_isbn books idx
        let m : Option AbsItem :=
          match normalize_isbn b.ISBN13 with
          | some k13 =>
            match idx k13 with
            | some it => some it
            | none =>
              match normalize_isbn b.ISBN with
              | some k10 => idx k10
              | none => none
          | none =>
            match normalize_isbn b.ISBN with
            | some k10 => idx k10
            | none => none
        match m with
        | some it => ((b, it) :: p.1, p.2)
        | none => (p.1, b :: p.2)) = _
  cases hm : (match normalize_isbn b.ISBN13 with
    | some k13 =>
      match idx k13 with
      | some it => some it
      | none =>
        match normalize_isbn b.ISBN with
        | some k10 => idx k10
        | none => none
    | none =>
      match normalize_isbn b.ISBN with
      | some k10 => idx k10
      | none => none : Option AbsItem) with
  | some it => simp [hm]
  | none => simp [hm]

theorem fp_cons (b : SourceRecord) (books : List SourceRecord)
    (items : List AbsItem) :
    fuzzy_pass (b :: books) items =
      ((fuzzy_pass [b] items).1 ++ (fuzzy_pass books items).1,
       (fuzzy_pass [b] items).2 ++ (fuzzy_pass books items).2) := by
  show (let r := fuzzy_pass books items
        match fuzzy_match_title_author b items with
        | some m => ((b, m) :: r.1, r.2)
        | none => (r.1, b :: r.2)) = _
  cases hm : fuzzy_match_title_author b items with
  | some m => simp [fuzzy_pass, hm]
  | none => simp [fuzzy_pass, hm]

theorem mbi_perm (books : List SourceRecord) (idx : String → Option AbsItem) :
    ((match_by_isbn books idx).1.map Prod.fst ++ (match_by_isbn books idx).2).Perm books := by
  induction books with
  | nil => simp [match_by_isbn]
  | cons b rest ih =>
    rw [mbi_cons]
    rw [mbi_singleton_red]
    cases hm : (match normalize_isbn b.ISBN13 with
      | some k13 =>
        match idx k13 with
        | some it => some it
        | none =>
          match normalize_isbn b.ISBN with
          | some k10 => idx k10
          | none => none
      | none =>
        match normalize_isbn b.ISBN with
        | some k10 => idx k10
        | none => none : Option AbsItem) with
    | some it =>
      simp only [List.map_append, List.map_cons, List.map_nil, List.nil_append,
        List.cons_append, List.append_nil]
      exact (ih.cons b)
    | none =>
      simp only [List.map_nil, List.nil_append, List.cons_append, List.append_nil]
      exact ((List.perm_middle).trans (ih.cons b))

theorem mbta_singleton_cases (b : SourceRecord) (idx : (String × String) → List AbsItem) :
    (∃ it, match_by_title_author [b] idx = ([(b, it)], [])) ∨
      match_by_title_author [b] idx = ([], [b]) := by
  rw [mbta_singleton_red]
  cases normalize_text b.Title with
  | none => exact Or.inr rfl
  | some t =>
    cases normalize_text b.Author with
    | none => exact Or.inr rfl
    | some a =>
      by_cases he : t = "" ∨ a = ""
      · right
        simp [he]
      · cases hc : idx (t, a) with
        | nil =>
          right
          simp [he, hc]
        | cons x rest =>
          cases rest with
          | nil =>
            left
            exact ⟨x, by simp [he, hc]⟩
          | cons y r2 =>
            right
            simp [he, hc]

theorem mbi_singleton_cases (b : SourceRecord) (idx : String → Option AbsItem) :
    (∃ it, match_by_isbn [b] idx = ([(b, it)], [])) ∨
      match_by_isbn [b] idx = ([], [b]) := by
  rw [mbi_singleton_red]
  cases hm : (match normalize_isbn b.ISBN13 with
    | some k13 =>
      match idx k13 with
      | some it => some it
      | none =>
        match normalize_isbn b.ISBN with
        | some k10 => idx k10
        | none => none
    | none =>
      match normalize_isbn b.ISBN with
      | some k10 => idx k10
      | none => none : Option AbsItem) with
  | some it =>
    left
    exact ⟨it, by simp⟩
  | none =>
    right
    simp

theorem fp_singleton_cases (b : SourceRecord) (items : List AbsItem) :
    (∃ it, fuzzy_pass [b] items = ([(b, it)], [])) ∨
      fuzzy_pass [b] items = ([], [b]) := by
  cases hm : fuzzy_match_title_author b items with
  | some m =>
    left
    exact ⟨m, by simp [fuzzy_pass, hm]⟩
  | none =>
    right
    simp [fuzzy_pass, hm]

theorem mbta_perm (books : List SourceRecord) (idx : (String × String) → List AbsItem) :
    ((match_by_title_author books idx).1.map Prod.fst ++
      (match_by_title_author books idx).2).Perm books := by
  induction books with
  | nil => simp [match_by_title_author]
  | cons b rest ih =>
    rw [mbta_cons]
    rcases mbta_singleton_cases b idx with ⟨it, hs⟩ | hs <;> rw [hs]
    · simp only [List.map_append, List.map_cons, List.map_nil, List.nil_append,
        List.cons_append, List.append_nil]
      exact ih.cons b
    · simp only [List.map_nil, List.nil_append, List.cons_append, List.append_nil]
      exact (List.perm_middle).trans (ih.cons b)

theorem fp_perm (books : List SourceRecord) (items : List AbsItem) :
    ((fuzzy_pass books items).1.map Prod.fst ++ (fuzzy_pass books items).2).Perm books := by
  induction books with
  | nil => simp [fuzzy_pass]
  | cons b rest ih =>
    rw [fp_cons]
    rcases fp_singleton_cases b items with ⟨it, hs⟩ | hs <;> rw [hs]
    · simp only [List.map_append, List.map_cons, List.map_nil, List.nil_append,
        List.cons_append, List.append_nil]
      exact ih.cons b
    · simp only [List.map_nil, List.nil_append, List.cons_append, List.append_nil]
      exact (List.perm_middle).trans (ih.cons b)

theorem mbi_sublists (books : List SourceRecord) (idx : String → Option AbsItem) :
    List.Sublist ((match_by_isbn books idx).1.map Prod.fst) books ∧
      List.Sublist (match_by_isbn books idx).2 books := by
  induction books with
  | nil => simp [match_by_isbn]
  | cons b rest ih =>
    rw [mbi_cons]
    rcases mbi_singleton_cases b idx with ⟨it, hs⟩ | hs <;> rw [hs]
    · simp only [List.map_append, List.map_cons, List.map_nil, List.nil_append,
        List.cons_append, List.append_nil]
      exact ⟨ih.1.cons₂ b, ih.2.cons b⟩
    · simp only [List.map_nil, List.nil_append, List.cons_append, List.append_nil]
      exact ⟨ih.1.cons b, ih.2.cons₂ b⟩

theorem mbta_sublists (books : List SourceRecord) (idx : (String × String) → List AbsItem) :
    List.Sublist ((match_by_title_author books idx).1.map Prod.fst) books ∧
      List.Sublist (match_by_title_author books idx).2 books := by
  induction books with
  | nil => simp [match_by_title_author]
  | cons b rest ih =>
    rw [mbta_cons]
    rcases mbta_singleton_cases b idx with ⟨it, hs⟩ | hs <;> rw [hs]
    · simp only [List.map_append, List.map_cons, List.map_nil, List.nil_append,
        List.cons_append, List.append_nil]
      exact ⟨ih.1.cons₂ b, ih.2.cons b⟩
    · simp only [List.map_nil, List.nil_append, List.cons_append, List.append_nil]
      exact ⟨ih.1.cons b, ih.2.cons₂ b⟩

theorem fp_sublists (books : List SourceRecord) (items : List AbsItem) :
    List.Sublist ((fuzzy_pass books items).1.map Prod.fst) books ∧
      List.Sublist (fuzzy_pass books items).2 books := by
  induction books with
  | nil => simp [fuzzy_pass]
  | cons b rest ih =>
    rw [fp_cons]
    rcases fp_singleton_cases b items with ⟨it, hs⟩ | hs <;> rw [hs]
    · simp only [List.map_append, List.map_cons, List.map_nil, List.nil_append,
        List.cons_append, List.append_nil]
      exact ⟨ih.1.cons₂ b, ih.2.cons b⟩
    · simp only [List.map_nil, List.nil_append, List.cons_append, List.append_nil]
      exact ⟨ih.1.cons b, ih.2.cons₂ b⟩

theorem isbn_index_foldl (items : List AbsItem) (acc : String → Option AbsItem) (k : String) :
    (items.foldl (fun idx it =>
      match normalize_isbn it.isbn with
      | some key => fun q => if q = key then some it else idx q
      | none => idx) acc) k =
    (match (items.filter (fun it => normalize_isbn it.isbn = some k)).getLast? with
     | some it => some it
     | none => acc k) := by
  induction items generalizing acc with
  | nil => simp
  | cons it rest ih =>
    rw [List.foldl_cons, ih]
    cases hnb : normalize_isbn it.isbn with
    | none =>
      have hpred : (decide (normalize_isbn it.isbn = some k)) = false := by
        rw [hnb]; simp
      rw [List.filter_cons_of_neg (by simpa using hpred)]
    | some key =>
      by_cases hk : key = k
      · subst hk
        rw [List.filter_cons_of_pos (by simp [hnb])]
        cases hfr : (rest.filter (fun x => decide (normalize_isbn x.isbn = some key))).getLast? with
        | some x =>
          have hne : rest.filter (fun x => decide (normalize_isbn x.isbn = some key)) ≠ [] := by
            intro he
            rw [he] at hfr
            simp at hfr
          cases hfl : rest.filter (fun x => decide (normalize_isbn x.isbn = some key)) with
          | nil => exact absurd hfl hne
          | cons y ys =>
            rw [hfl] at hfr
            rw [List.getLast?_cons_cons, hfr]
        | none =>
          rw [List.getLast?_eq_none_iff] at hfr
          rw [hfr]
          show (fun q => if q = key then some it else acc q) key = _
          simp [hnb]
      · rw [List.filter_cons_of_neg (by simp [hnb, hk])]
        cases (rest.filter (fun x => decide (normalize_isbn x.isbn = some k))).getLast? with
        | some x => rfl
        | none =>
          show (fun q => if q = key then some it else acc q) k = acc k
          simp [Ne.symm hk]

/-- Claim C7: the identifier index maps a key to the last item of the
input list whose isbn normalizes to that key (last write wins), and to
nothing when no item carries the key; items with an absent or
digit-free isbn contribute no key at all. -/
theorem c7_identifier_index_last_write (items : List AbsItem) (k : String) :
    index_abs_items_by_isbn items k =
      (items.filter (fun it => normalize_isbn it.isbn = some k)).getLast? := by
  unfold index_abs_items_by_isbn
  rw [isbn_index_foldl]
  cases (items.filter (fun it => normalize_isbn it.isbn = some k)).getLast? with
  | some x => rfl
  | none => rfl

/-- Claim C9, amended: the apply loop issues exactly one update call
per MatchPair, in order, regardless of failures (so every remaining
match is still attempted after a failure), and the final tally counts
exactly one success or one failure per call; a catalog item appearing
in several MatchPairs receives one call per pair, not one in total. -/
theorem c9_apply_per_call_tally (ms : List (SourceRecord × AbsItem)) (upd : String → Bool) :
    (applyUpdates ms upd).1 = ms.map (fun p => p.2.id) ∧
    (applyUpdates ms upd).2.1 = (ms.filter (fun p => upd p.2.id)).length ∧
    (applyUpdates ms upd).2.2 = (ms.filter (fun p => !upd p.2.id)).length ∧
    (applyUpdates ms upd).2.1 + (applyUpdates ms upd).2.2 = ms.length := by
  induction ms with
  | nil => simp [applyUpdates]
  | cons p rest ih =>
    obtain ⟨s, it⟩ := p
    by_cases hu : upd it.id
    · refine ⟨?_, ?_, ?_, ?_⟩
      · simp [applyUpdates, hu, ih.1]
      · rw [List.filter_cons_of_pos (by simpa using hu)]
        simp [applyUpdates, hu, ih.2.1]
      · rw [List.filter_cons_of_neg (by simpa using hu)]
        simp [applyUpdates, hu, ih.2.2.1]
      · have h4 := ih.2.2.2
        simp only [applyUpdates, List.length_cons, if_pos hu]
        omega
    · refine ⟨?_, ?_, ?_, ?_⟩
      · simp [applyUpdates, hu, ih.1]
      · rw [List.filter_cons_of_neg (by simpa using hu)]
        simp [applyUpdates, hu, ih.2.1]
      · rw [List.filter_cons_of_pos (by simpa using hu)]
        simp [applyUpdates, hu, ih.2.2.1]
      · have h4 := ih.2.2.2
        simp only [applyUpdates, List.length_cons]
        simp only [if_neg hu]
        omega

theorem ta_index_skip (it : AbsItem) (items : List AbsItem)
    (h : optFalsy (normalize_text it.title) = true ∨
         optFalsy (normalize_text it.author) = true) :
    index_abs_items_by_title_author (it :: items) =
      index_abs_items_by_title_author items := by
  unfold index_abs_items_by_title_author
  rw [List.foldl_cons]
  congr 1
  exact ta_index_step_falsy _ _ h

theorem mbta_falsy (r : SourceRecord) (rest : List SourceRecord)
    (idx : (String × String) → List AbsItem)
    (h : optFalsy (normalize_text r.Title) = true ∨
         optFalsy (normalize_text r.Author) = true) :
    match_by_title_author (r :: rest) idx =
      ((match_by_title_author rest idx).1, r :: (match_by_title_author rest idx).2) := by
  show (let p := match_by_title_author rest idx
        match normalize_text r.Title, normalize_text r.Author with
        | some t, some a =>
          if t = "" ∨ a = "" then (p.1, r :: p.2)
          else
            match idx (t, a) with
            | [it] => ((r, it) :: p.1, p.2)
            | _ => (p.1, r :: p.2)
        | _, _ => (p.1, r :: p.2)) = _
  cases hnt : normalize_text r.Title with
  | none => rfl
  | some t =>
    cases hna : normalize_text r.Author with
    | none => rfl
    | some a =>
      have he : t = "" ∨ a = "" := by
        rcases h with h | h
        · rw [hnt] at h
          exact Or.inl (by simpa [optFalsy] using h)
        · rw [hna] at h
          exact Or.inr (by simpa [optFalsy] using h)
      show (if t = "" ∨ a = "" then _ else _) = _
      rw [if_pos he]

theorem fuzzy_falsy (r : SourceRecord) (items : List AbsItem)
    (h : optFalsy (normalize_text r.Title) = true ∨
         optFalsy (normalize_text r.Author) = true) :
    fuzzy_match_title_author r items = none := by
  unfold fuzzy_match_title_author
  cases hnt : normalize_text r.Title with
  | none => rfl
  | some t =>
    cases hna : normalize_text r.Author with
    | none => rfl
    | some a =>
      have he : t = "" ∨ a = "" := by
        rcases h with h | h
        · rw [hnt] at h
          exact Or.inl (by simpa [optFalsy] using h)
        · rw [hna] at h
          exact Or.inr (by simpa [optFalsy] using h)
      show (if t = "" ∨ a = "" then none else _) = _
      rw [if_pos he]

theorem fuzzyCandidate_falsy (gt ga : String) (it : AbsItem)
    (h : optFalsy (normalize_text it.title) = true ∨
         optFalsy (normalize_text it.author) = true) :
    fuzzyCandidate gt ga it = false := by
  unfold fuzzyCandidate
  cases hnt : normalize_text it.title with
  | none => rfl
  | some bt =>
    cases hna : normalize_text it.author with
    | none => rfl
    | some ba =>
      rcases h with h | h
      · rw [hnt] at h
        simp only [optFalsy] at h
        simp [h]
      · rw [hna] at h
        simp only [optFalsy] at h
        simp [h]

theorem fuzzy_skip_item (b : SourceRecord) (it : AbsItem) (items : List AbsItem)
    (h : optFalsy (normalize_text it.title) = true ∨
         optFalsy (normalize_text it.author) = true) :
    fuzzy_match_title_author b (it :: items) = fuzzy_match_title_author b items := by
  unfold fuzzy_match_title_author
  cases normalize_text b.Title with
  | none => rfl
  | some gt =>
    cases normalize_text b.Author with
    | none => rfl
    | some ga =>
      show (if gt = "" ∨ ga = "" then none
            else match List.filter (fuzzyCandidate gt ga) (it :: items) with
                 | [x] => some x
                 | _ => none) =
           (if gt = "" ∨ ga = "" then none
            else match List.filter (fuzzyCandidate gt ga) items with
                 | [x] => some x
                 | _ => none)
      by_cases he : gt = "" ∨ ga = ""
      · rw [if_pos he, if_pos he]
      · rw [if_neg he, if_neg he]
        rw [List.filter_cons_of_neg (by simp [fuzzyCandidate_falsy gt ga it h])]


/-! ### Claim theorems -/

/-- Claim C1, counterexample: on a concrete run the catalog item with
id x is matched by tier 1 against the first record (via its
identifier) and again by tier 2 against the second record (via title
and author), so its id appears in two MatchPairs of one result: the
tiers do not exclude already-matched catalog items. -/
theorem c1_catalog_item_reused_counterexample :
    ¬ ((runPipeline
        [⟨some "t1", some "u1", none, some "1"⟩, ⟨some "a", some "b", none, none⟩]
        [⟨"x", some "a", some "b", some "1", none⟩]).1.map
          (fun p => p.2.id)).Nodup := by decide

/-- Claim C1, amended: what does hold for every run is that the source
records are partitioned by the pipeline: the sources of the match list
together with the final unmatched list are a permutation of the input
records, so each input record occurrence lands in at most one
MatchPair; a CatalogItem, however, may appear in several MatchPairs. -/
theorem c1_source_records_partitioned (B : List SourceRecord) (I : List AbsItem) :
    ((runPipeline B I).1.map Prod.fst ++ (runPipeline B I).2).Perm B := by
  have hrp : runPipeline B I =
      ((match_by_isbn B (index_abs_items_by_isbn I)).1 ++
        (match_by_title_author (match_by_isbn B (index_abs_items_by_isbn I)).2
          (index_abs_items_by_title_author I)).1 ++
        (fuzzy_pass (match_by_title_author (match_by_isbn B (index_abs_items_by_isbn I)).2
          (index_abs_items_by_title_author I)).2 I).1,
       (fuzzy_pass (match_by_title_author (match_by_isbn B (index_abs_items_by_isbn I)).2
          (index_abs_items_by_title_author I)).2 I).2) := rfl
  rw [hrp]
  set p1 := match_by_isbn B (index_abs_items_by_isbn I) with hp1
  set p2 := match_by_title_author p1.2 (index_abs_items_by_title_author I) with hp2
  set p3 := fuzzy_pass p2.2 I with hp3
  simp only [List.map_append, List.append_assoc]
  have h3 : (p3.1.map Prod.fst ++ p3.2).Perm p2.2 := fp_perm p2.2 I
  have h2 : (p2.1.map Prod.fst ++ p2.2).Perm p1.2 :=
    mbta_perm p1.2 (index_abs_items_by_title_author I)
  have h1 : (p1.1.map Prod.fst ++ p1.2).Perm B := mbi_perm B (index_abs_items_by_isbn I)
  exact ((List.Perm.append_left _ (List.Perm.append_left _ h3)).trans
    ((List.Perm.append_left _ h2).trans h1))

/-- Witness for C2 at a concrete record and one-item catalog whose
normalized titles and authors agree exactly. -/
theorem c2_fuzzy_both_thresholds_witness :
    normalize_text (some "Dune") = some "dune" ∧ ("dune" : String) ≠ "" ∧
    normalize_text (some "Frank Herbert") = some "frank herbert" ∧
    ("frank herbert" : String) ≠ "" ∧
    (fuzzy_match_title_author ⟨some "Dune", some "Frank Herbert", none, none⟩
        [⟨"x", some "Dune", some "Frank Herbert", none, none⟩] =
        some ⟨"x", some "Dune", some "Frank Herbert", none, none⟩ ↔
      ([⟨"x", some "Dune", some "Frank Herbert", none, none⟩].filter
          (specQualifies "dune" "frank herbert")) =
        [⟨"x", some "Dune", some "Frank Herbert", none, none⟩]) :=
  ⟨by decide, by decide, by decide, by decide,
    (c2_fuzzy_both_thresholds (by decide) (by decide) (by decide) (by decide)).1 _⟩

/-- Claim C3: over an index built from any catalog list, a record
matches in tier 2 exactly when its normalized key maps to exactly one
candidate; an absent key or two or more candidates leave it unmatched;
and the list-level matcher treats each record independently, so the
per-record characterization governs every position of the input. -/
theorem c3_exact_title_author_unique (i : List AbsItem) (r : SourceRecord) :
    (∀ x, match_by_title_author [r] (index_abs_items_by_title_author i) = ([(r, x)], []) ↔
        index_abs_items_by_title_author i (recordKey r) = [x]) ∧
    (match_by_title_author [r] (index_abs_items_by_title_author i) = ([], [r]) ↔
        (index_abs_items_by_title_author i (recordKey r)).length ≠ 1) ∧
    (∀ B, match_by_title_author (r :: B) (index_abs_items_by_title_author i) =
        ((match_by_title_author [r] (index_abs_items_by_title_author i)).1 ++
          (match_by_title_author B (index_abs_items_by_title_author i)).1,
         (match_by_title_author [r] (index_abs_items_by_title_author i)).2 ++
          (match_by_title_author B (index_abs_items_by_title_author i)).2)) :=
  ⟨(mbta_char i r).1, (mbta_char i r).2,
    fun B => mbta_cons r B (index_abs_items_by_title_author i)⟩

/-- Claim C4: tier 1 matches a record to the item indexed under its
normalized 13-digit identifier when that lookup succeeds; it falls
back to the 10-digit identifier only when the 13-digit form is missing
or absent from the index; it leaves the record unmatched exactly when
both identifiers are missing or absent from the index; and the
list-level matcher treats each record independently. -/
theorem c4_isbn_thirteen_preferred (r : SourceRecord) (idx : String → Option AbsItem) :
    (∀ x, match_by_isbn [r] idx = ([(r, x)], []) ↔
      ((∃ k, normalize_isbn r.ISBN13 = some k ∧ idx k = some x) ∨
       ((normalize_isbn r.ISBN13 = none ∨
         (∃ k, normalize_isbn r.ISBN13 = some k ∧ idx k = none)) ∧
        (∃ k, normalize_isbn r.ISBN = some k ∧ idx k = some x)))) ∧
    (match_by_isbn [r] idx = ([], [r]) ↔
      ((normalize_isbn r.ISBN13 = none ∨
        (∃ k, normalize_isbn r.ISBN13 = some k ∧ idx k = none)) ∧
       (normalize_isbn r.ISBN = none ∨
        (∃ k, normalize_isbn r.ISBN = some k ∧ idx k = none)))) ∧
    (∀ B, match_by_isbn (r :: B) idx =
      ((match_by_isbn [r] idx).1 ++ (match_by_isbn B idx).1,
       (match_by_isbn [r] idx).2 ++ (match_by_isbn B idx).2)) :=
  ⟨(mbi_char r idx).1, (mbi_char r idx).2, fun B => mbi_cons r B idx⟩

/-- Claim C5: normalize_isbn keeps exactly the digit characters of its
input in order, and returns none for an absent input or one without
any digit (the empty string has no digits, so it also yields none). -/
theorem c5_normalize_identifier_digits :
    normalize_isbn none = none ∧
    ∀ s : String, normalize_isbn (some s) =
      (if s.data.filter Char.isDigit = [] then none
       else some (String.mk (s.data.filter Char.isDigit))) := by
  refine ⟨rfl, ?_⟩
  intro s
  by_cases hs : s = ""
  · subst hs
    rfl
  · show (if s = "" then none
          else
            let digits := List.filter Char.isDigit s.data
            if digits = [] then none else some (String.mk digits)) = _
    rw [if_neg hs]

/-- Claim C6, counterexample: the punctuation-only input yields the
text value empty string, but applying normalize_text again yields
none, so idempotence fails exactly where the result is empty. -/
theorem c6_idempotence_counterexample :
    normalize_text (some "!") = some "" ∧
      normalize_text (normalize_text (some "!")) ≠ normalize_text (some "!") := by
  constructor
  · decide
  · decide

/-- Witness for the amended C6 at a concrete input whose normalized
form is the non-empty string dune. -/
theorem c6_idempotent_on_nonempty_witness :
    normalize_text (some "Dune!") = some "dune" ∧ ("dune" : String) ≠ "" ∧
      normalize_text (some "dune") = some "dune" :=
  ⟨by decide, by decide,
    @c6_idempotent_on_nonempty "Dune!" "dune" (by decide) (by decide)⟩

/-- Claim C8: the pipeline runs tier 1 on the input records, tier 2 on
tier 1 residual, tier 3 on tier 2 residual, concatenates the match
lists in tier order, and inside every tier both the matched sources
and the residual preserve the encounter order of that tier input
(they are sublists of it). -/
theorem c8_pipeline_tier_order (B : List SourceRecord) (I : List AbsItem) :
    ∃ m1 u1 m2 u2 m3 u3,
      match_by_isbn B (index_abs_items_by_isbn I) = (m1, u1) ∧
      match_by_title_author u1 (index_abs_items_by_title_author I) = (m2, u2) ∧
      fuzzy_pass u2 I = (m3, u3) ∧
      runPipeline B I = (m1 ++ m2 ++ m3, u3) ∧
      List.Sublist (m1.map Prod.fst) B ∧ List.Sublist u1 B ∧
      List.Sublist (m2.map Prod.fst) u1 ∧ List.Sublist u2 u1 ∧
      List.Sublist (m3.map Prod.fst) u2 ∧ List.Sublist u3 u2 := by
  refine ⟨(match_by_isbn B (index_abs_items_by_isbn I)).1,
    (match_by_isbn B (index_abs_items_by_isbn I)).2,
    (match_by_title_author (match_by_isbn B (index_abs_items_by_isbn I)).2
      (index_abs_items_by_title_author I)).1,
    (match_by_title_author (match_by_isbn B (index_abs_items_by_isbn I)).2
      (index_abs_items_by_title_author I)).2,
    (fuzzy_pass (match_by_title_author (match_by_isbn B (index_abs_items_by_isbn I)).2
      (index_abs_items_by_title_author I)).2 I).1,
    (fuzzy_pass (match_by_title_author (match_by_isbn B (index_abs_items_by_isbn I)).2
      (index_abs_items_by_title_author I)).2 I).2,
    rfl, rfl, rfl, rfl, ?_, ?_, ?_, ?_, ?_, ?_⟩
  · exact (mbi_sublists B _).1
  · exact (mbi_sublists B _).2
  · exact (mbta_sublists _ _).1
  · exact (mbta_sublists _ _).2
  · exact (fp_sublists _ _).1
  · exact (fp_sublists _ _).2

/-- Claim C9, counterexample: in the run where the catalog item x is
matched twice (see the C1 counterexample), the apply loop calls the
update once per MatchPair, so the item receives two calls, not exactly
one; and with every call failing, both calls are still issued and both
failures are tallied, showing a failure does not stop processing. -/
theorem c9_duplicate_calls_counterexample :
    (applyUpdates (runPipeline
        [⟨some "t1", some "u1", none, some "1"⟩, ⟨some "a", some "b", none, none⟩]
        [⟨"x", some "a", some "b", some "1", none⟩]).1 (fun _ => false)).1 = ["x", "x"] ∧
    ((applyUpdates (runPipeline
        [⟨some "t1", some "u1", none, some "1"⟩, ⟨some "a", some "b", none, none⟩]
        [⟨"x", some "a", some "b", some "1", none⟩]).1 (fun _ => false)).1.count "x" ≠ 1) ∧
    (applyUpdates (runPipeline
        [⟨some "t1", some "u1", none, some "1"⟩, ⟨some "a", some "b", none, none⟩]
        [⟨"x", some "a", some "b", some "1", none⟩]).1 (fun _ => false)).2.2 = 2 := by
  refine ⟨by decide, by decide, by decide⟩

/-- Claim C10: normalize_text maps some non-empty inputs (punctuation
only, or a leading colon) to the empty string rather than none, and an
empty normalized title or author is treated exactly like an absent
one: such a record is unmatched by tier 2 and by tier 3, and such an
item is invisible to the title and author index and to the fuzzy
candidate pool. -/
theorem c10_empty_normalized_text_excluded (r : SourceRecord) (x : AbsItem)
    (h : optFalsy (normalize_text r.Title) = true ∨
         optFalsy (normalize_text r.Author) = true)
    (hx : optFalsy (normalize_text x.title) = true ∨
          optFalsy (normalize_text x.author) = true) :
    normalize_text (some "!?") = some "" ∧
    normalize_text (some ":anything") = some "" ∧
    (∀ B idx, match_by_title_author (r :: B) idx =
      ((match_by_title_author B idx).1, r :: (match_by_title_author B idx).2)) ∧
    (∀ i, index_abs_items_by_title_author (x :: i) =
      index_abs_items_by_title_author i) ∧
    (∀ i, fuzzy_match_title_author r i = none) ∧
    (∀ b i, fuzzy_match_title_author b (x :: i) = fuzzy_match_title_author b i) :=
  ⟨by decide, by decide,
    fun B idx => mbta_falsy r B idx h,
    fun i => ta_index_skip x i hx,
    fun i => fuzzy_falsy r i h,
    fun b i => fuzzy_skip_item b x i hx⟩

/-- Witness for C10 at a record whose title normalizes to the empty
string and an item whose title does too. -/
theorem c10_empty_normalized_text_excluded_witness :
    fuzzy_match_title_author ⟨some ":x", some "!", none, none⟩ [] = none :=
  (c10_empty_normalized_text_excluded ⟨some ":x", some "!", none, none⟩
    ⟨"y", some ":x", some "!", none, none⟩
    (Or.inl (by decide)) (Or.inl (by decide))).2.2.2.2.1 []

end Shelfmark
